import Mathlib

/-
Shallow embedding of src/app.py (a heuristic multi-language code formatter).

Text is modelled as List Char (Lean's String is a structure around List Char,
so every top-level function also gets a String-facing wrapper).  Python string
primitives (strip, lstrip, rstrip, splitlines, split("\n"), replace, "in") are
embedded as executable structural recursions with the same semantics on the
character classes the program uses; the Python-specific unicode line boundaries
beyond "\n", "\r\n", "\r" and unicode spaces beyond the six ASCII whitespace
characters are outside the inputs any claim mentions and are not modelled.
-/

namespace CodeFormat

/-- The six ASCII characters Python's default str.strip family removes. -/
def isPySpace (c : Char) : Bool :=
  c == ' ' || c == '\t' || c == '\n' || c == '\r' || c == Char.ofNat 11 || c == Char.ofNat 12

/-- Python str.lstrip(): drop leading whitespace. -/
def lstripChars (l : List Char) : List Char :=
  l.dropWhile isPySpace

/-- Python str.rstrip(): drop trailing whitespace (structural form so that
the result for c :: rest depends only on c and the result for rest). -/
def rstripChars : List Char → List Char
  | [] => []
  | c :: rest =>
    match rstripChars rest with
    | [] => if isPySpace c then [] else [c]
    | h :: t => c :: h :: t

/-- Python str.strip(): both ends. -/
def stripChars (l : List Char) : List Char :=
  rstripChars (lstripChars l)

/-- Python str.lower() on the ASCII letters the program compares. -/
def lowerChars (l : List Char) : List Char :=
  l.map Char.toLower

/-- A run of n spaces, as in " " * n. -/
def mkSpaces (n : Nat) : List Char :=
  List.replicate n ' '

/-- Join a list of lines with single newline separators ("\n".join). -/
def intercalateNl (ls : List (List Char)) : List Char :=
  List.intercalate ['\n'] ls

/-- Python str.split("\n"): always at least one piece, separators consumed. -/
def splitNl : List Char → List (List Char)
  | [] => [[]]
  | c :: rest =>
    if c = '\n' then [] :: splitNl rest
    else
      match splitNl rest with
      | [] => [[c]]
      | h :: t => (c :: h) :: t

/-- Python str.splitlines(keepends=True) on the "\n" / "\r\n" / "\r" boundaries. -/
def splitlinesKeep : List Char → List (List Char)
  | [] => []
  | '\n' :: rest => ['\n'] :: splitlinesKeep rest
  | '\r' :: '\n' :: rest => ['\r', '\n'] :: splitlinesKeep rest
  | '\r' :: rest => ['\r'] :: splitlinesKeep rest
  | c :: rest =>
    match splitlinesKeep rest with
    | [] => [[c]]
    | h :: t => (c :: h) :: t

/-- Fuel-indexed engine of Python str.splitlines() (terminators dropped)
on the same boundaries: "\n" and "\r" both close a line, a "\r\n" pair
closes a single line.  One unit of fuel is spent per step and each step
consumes at least one character, so fuel = length input is always enough;
the fuel only makes the recursion structural. -/
def slnkFuel : Nat → List Char → List (List Char)
  | _, [] => []
  | 0, l => [l]
  | fuel + 1, c :: rest =>
    if c = '\n' then [] :: slnkFuel fuel rest
    else if c = '\r' then
      [] ::
        (match rest with
         | c2 :: rest2 => if c2 = '\n' then slnkFuel fuel rest2 else slnkFuel fuel rest
         | [] => slnkFuel fuel rest)
    else
      match slnkFuel fuel rest with
      | [] => [[c]]
      | h :: t => (c :: h) :: t

/-- Python str.splitlines() (terminators dropped). -/
def splitlinesNoKeep (l : List Char) : List (List Char) :=
  slnkFuel l.length l

/-- Rewrite every "\n" of a text as "\r\n" (builds the CRLF-styled variant
of an LF-styled input, used to state line-ending-style independence). -/
def toCrlf : List Char → List Char
  | [] => []
  | c :: rest => if c = '\n' then '\r' :: '\n' :: toCrlf rest else c :: toCrlf rest

/-- Python "pat in s" substring test. -/
def occursIn (pat : List Char) : List Char → Bool
  | [] => pat.isPrefixOf []
  | c :: rest => pat.isPrefixOf (c :: rest) || occursIn pat rest

/-- Fuel-indexed engine of Python str.replace(pat, rep): scan left to right,
replace each non-overlapping occurrence.  One unit of fuel is spent per step
and each step consumes at least one input character, so fuel = length input
is always enough; the fuel only makes the recursion structural. -/
def replFuel (pat rep : List Char) : Nat → List Char → List Char
  | _, [] => []
  | 0, l => l
  | fuel + 1, c :: rest =>
    if pat.isPrefixOf (c :: rest) && !pat.isEmpty then
      rep ++ replFuel pat rep fuel (rest.drop (pat.length - 1))
    else
      c :: replFuel pat rep fuel rest

/-- Python str.replace(pat, rep) for the nonempty patterns the program uses. -/
def replaceAllSub (pat rep l : List Char) : List Char :=
  replFuel pat rep l.length l

/- ------------------------------------------------------------------ -/
/- preprocess_code_python (src/app.py lines 62-82)                     -/
/- ------------------------------------------------------------------ -/

/-- The five replacement pairs, in the dict's (insertion-order) enumeration. -/
def keywordPairs : List (List Char × List Char) :=
  [("Else:".data, "else:".data),
   ("Elif ".data, "elif ".data),
   ("If ".data, "if ".data),
   ("While ".data, "while ".data),
   ("For ".data, "for ".data)]

/-- The per-line body of preprocess_code_python: for each pair in order,
if the old substring occurs in the line, replace every occurrence. -/
def processKwLine (l : List Char) : List Char :=
  keywordPairs.foldl (fun acc pr => if occursIn pr.1 acc then replaceAllSub pr.1 pr.2 acc else acc) l

/-- preprocess_code_python: splitlines(keepends=True), rewrite each line,
"".join the results. -/
def preprocess_code_python (s : String) : String :=
  ⟨((splitlinesKeep s.data).map processKwLine).flatten⟩

/-- Spec-side restatement of the Keyword Normalizer, following the spec's
words: every occurrence of each left-hand substring is replaced, pairs
applied in the fixed enumeration order per line (no "old in line" guard). -/
def processKwLineSpec (l : List Char) : List Char :=
  keywordPairs.foldl (fun acc pr => replaceAllSub pr.1 pr.2 acc) l

/-- Spec-side Keyword Normalizer over whole texts. -/
def preprocessSpec (s : String) : String :=
  ⟨((splitlinesKeep s.data).map processKwLineSpec).flatten⟩

/- ------------------------------------------------------------------ -/
/- fix_block_indentation_python (src/app.py lines 85-123)              -/
/- ------------------------------------------------------------------ -/

/-- The ten block-opening keyword tests of fix_block_indentation_python. -/
def blockKeywords : List (List Char) :=
  ["if ".data, "elif ".data, "else:".data, "for ".data, "while ".data,
   "def ".data, "class ".data, "with ".data, "try:".data, "except ".data]

/-- The opener test: the stripped line ends with ":" and its lowercase
form starts with one of the block keywords. -/
def isOpenerLine (l : List Char) : Bool :=
  let st := stripChars l
  (st.getLast? == some ':') && blockKeywords.any (fun kw => kw.isPrefixOf (lowerChars st))

/-- A line paired with its stored leading-whitespace width
(len(line) - len(line.lstrip())). -/
def toLineRecord (l : List Char) : List Char × Nat :=
  (l, l.length - (lstripChars l).length)

/-- The inner while loop of fix_block_indentation_python, acting on the
records after the opener: skip blank lines; at the first non-blank record,
if its stored indent is not deeper than the opener's, replace it by
(opener indent + indent_size) spaces followed by its stripped text (and
store the new indent), then stop; if it is deeper, stop without change. -/
def innerFix (lvl sz : Nat) : List (List Char × Nat) → List (List Char × Nat)
  | [] => []
  | x :: rest =>
    if stripChars x.1 = [] then x :: innerFix lvl sz rest
    else if x.2 ≤ lvl then (mkSpaces (lvl + sz) ++ stripChars x.1, lvl + sz) :: rest
    else x :: rest

/-- Fuel-indexed engine of the outer while loop: visit each record in
order; when it is an opener, apply the inner loop to the records after it
(the source mutates only indices strictly beyond the current one and then
advances, which is exactly this head recursion on the already-updated
tail).  innerFix preserves the length, so fuel = length is always enough;
the fuel only makes the recursion structural. -/
def outerFixFuel (sz : Nat) : Nat → List (List Char × Nat) → List (List Char × Nat)
  | _, [] => []
  | 0, l => l
  | fuel + 1, x :: rest =>
    x :: outerFixFuel sz fuel (if isOpenerLine x.1 then innerFix x.2 sz rest else rest)

/-- The outer while loop of fix_block_indentation_python. -/
def outerFix (sz : Nat) (pls : List (List Char × Nat)) : List (List Char × Nat) :=
  outerFixFuel sz pls.length pls

/-- fix_block_indentation_python: splitlines, pair each line with its
leading width, run the loop, rejoin with "\n". -/
def fix_block_indentation_python (s : String) (sz : Nat) : String :=
  ⟨intercalateNl ((outerFix sz ((splitlinesNoKeep s.data).map toLineRecord)).map Prod.fst)⟩

/-- Spec-side search of the repairer: index and record of the first
non-blank record, if any (blank lines are skipped). -/
def firstNonBlank : List (List Char × Nat) → Option (Nat × (List Char × Nat))
  | [] => none
  | x :: rest =>
    if stripChars x.1 = [] then (firstNonBlank rest).map (fun p => (p.1 + 1, p.2)) else some (0, x)

/-- Leading-whitespace width of the k-th "\n"-separated line of a string. -/
def lineIndentWidth (s : String) (k : Nat) : Nat :=
  let l := (splitNl s.data).getD k []
  l.length - (lstripChars l).length

/- ------------------------------------------------------------------ -/
/- format_python_code (src/app.py lines 126-162)                       -/
/- ------------------------------------------------------------------ -/

/-- The text reaching the external-formatter stage: preprocess, then the
requested number of block-indentation passes (code_step2 in the source). -/
def code_step2 (raw : String) : Nat → String
  | 0 => preprocess_code_python raw
  | n + 1 => fix_block_indentation_python (code_step2 raw n) 4

/-- format_python_code, with autopep8.fix_code abstracted as an engine that
either produces text or signals an error.  Both engine invocations sit in
one try block; on the first failure the function returns code_step2, and
the caught error detail is discarded (the source binds it as e and never
uses it). -/
def format_python_code (engine : String → Except String String) (raw : String) (n : Nat) : String :=
  match engine (code_step2 raw n) with
  | Except.error _ => code_step2 raw n
  | Except.ok p1 =>
    match engine p1 with
    | Except.error _ => code_step2 raw n
    | Except.ok p2 => p2

/- ------------------------------------------------------------------ -/
/- minimal_cleanup_for_non_python (src/app.py lines 165-183)           -/
/- ------------------------------------------------------------------ -/

/-- The blank test of the cleanup loop (line.strip() == ""). -/
def isBlankLine (l : List Char) : Bool :=
  stripChars l == []

/-- The cleanup loop: keep every line, but skip a blank line whenever the
previous kept-or-skipped line was blank (the last_line_blank flag). -/
def collapseBlanks : Bool → List (List Char) → List (List Char)
  | _, [] => []
  | lastBlank, l :: rest =>
    if isBlankLine l then
      if lastBlank then collapseBlanks true rest
      else l :: collapseBlanks true rest
    else l :: collapseBlanks false rest

/-- The line list produced by minimal_cleanup_for_non_python:
split on "\n", rstrip each line, collapse blank runs. -/
def minimalCleanupLines (l : List Char) : List (List Char) :=
  collapseBlanks false ((splitNl l).map rstripChars)

/-- minimal_cleanup_for_non_python: the cleanup lines rejoined with "\n". -/
def minimal_cleanup_for_non_python (s : String) : String :=
  ⟨intercalateNl (minimalCleanupLines s.data)⟩

/-- Boolean check that a line list has no two consecutive blank lines. -/
def noTwoBlankB : List (List Char) → Bool
  | a :: b :: t => !(isBlankLine a && isBlankLine b) && noTwoBlankB (b :: t)
  | _ => true

/-- Number of blank lines in a line list. -/
def countBlank : List (List Char) → Nat
  | [] => 0
  | l :: rest => (if isBlankLine l then 1 else 0) + countBlank rest

/-- Number of maximal runs of consecutive blank lines, with a flag saying
whether the previous line was blank (a blank line opens a new run exactly
when the previous line was not blank). -/
def blankRunsAux : Bool → List (List Char) → Nat
  | _, [] => 0
  | prevBlank, l :: rest =>
    if isBlankLine l then (if prevBlank then 0 else 1) + blankRunsAux true rest
    else blankRunsAux false rest

/-- Number of maximal runs of consecutive blank lines in a line list. -/
def blankRuns (ls : List (List Char)) : Nat :=
  blankRunsAux false ls

/- ------------------------------------------------------------------ -/
/- format_sas_code (src/app.py lines 186-213)                          -/
/- ------------------------------------------------------------------ -/

/-- SAS block-start prefixes. -/
def sasBlockStart : List (List Char) := ["proc ".data, "data ".data]

/-- SAS block-end prefixes. -/
def sasBlockEnd : List (List Char) := ["run;".data, "quit;".data]

/-- "    " * indent_level for a Python int (negative values give ""). -/
def indentChars (d : Int) : List Char :=
  mkSpaces (4 * d.toNat)

/-- One iteration of the SAS loop over (indent_level, reversed output). -/
def sasStep (st : Int × List (List Char)) (line : List Char) : Int × List (List Char) :=
  let stripped := stripChars line
  let lower := lowerChars stripped
  if sasBlockEnd.any (fun kw => kw.isPrefixOf lower) then
    let d := max (st.1 - 1) 0
    (d, (indentChars d ++ stripped) :: st.2)
  else
    let d := if sasBlockStart.any (fun kw => kw.isPrefixOf lower) then st.1 + 1 else st.1
    (d, (indentChars st.1 ++ stripped) :: st.2)

/-- format_sas_code: cleanup, split on "\n", run the loop from depth 0,
rejoin with "\n". -/
def format_sas_code (s : String) : String :=
  ⟨intercalateNl (((splitNl (minimal_cleanup_for_non_python s).data).foldl sasStep ((0 : Int), [])).2.reverse)⟩

/-- Spec-side restatement of the SAS indenter, following the spec's words:
an end-marker line decrements depth (floor 0) and is emitted at the
post-decrement depth; any other line is emitted at the current depth and
only then, if it is a start-marker line, depth is incremented. -/
def sasSpecGo : Int → List (List Char) → List (List Char)
  | _, [] => []
  | depth, line :: rest =>
    let stripped := stripChars line
    let lower := lowerChars stripped
    if sasBlockEnd.any (fun kw => kw.isPrefixOf lower) then
      (indentChars (max (depth - 1) 0) ++ stripped) :: sasSpecGo (max (depth - 1) 0) rest
    else if sasBlockStart.any (fun kw => kw.isPrefixOf lower) then
      (indentChars depth ++ stripped) :: sasSpecGo (depth + 1) rest
    else
      (indentChars depth ++ stripped) :: sasSpecGo depth rest

/-- Spec-side SAS formatter over whole texts. -/
def formatSasSpec (s : String) : String :=
  ⟨intercalateNl (sasSpecGo 0 (splitNl (minimal_cleanup_for_non_python s).data))⟩

/- ------------------------------------------------------------------ -/
/- format_vba_code (src/app.py lines 216-248)                          -/
/- ------------------------------------------------------------------ -/

/-- VBA block-start prefixes. -/
def vbaBlockStart : List (List Char) :=
  ["sub ".data, "function ".data, "if ".data, "for ".data, "while ".data,
   "select case".data, "with".data]

/-- VBA block-end prefixes. -/
def vbaBlockEnd : List (List Char) :=
  ["end sub".data, "end function".data, "end if".data, "next".data, "wend".data,
   "end select".data, "end with".data]

/-- The Else test: the stripped lowercase line is exactly "else" or starts
with "else ". -/
def isElseLine (lower : List Char) : Bool :=
  lower == "else".data || ("else ".data).isPrefixOf lower

/-- One iteration of the VBA loop: end-markers first (decrement then emit),
then the Else case (decrement, emit, re-increment), then everything else
(emit, then increment on a start-marker). -/
def vbaStep (st : Int × List (List Char)) (line : List Char) : Int × List (List Char) :=
  let stripped := stripChars line
  let lower := lowerChars stripped
  if vbaBlockEnd.any (fun kw => kw.isPrefixOf lower) then
    let d := max (st.1 - 1) 0
    (d, (indentChars d ++ stripped) :: st.2)
  else if isElseLine lower then
    let d := max (st.1 - 1) 0
    (d + 1, (indentChars d ++ stripped) :: st.2)
  else
    let d := if vbaBlockStart.any (fun kw => kw.isPrefixOf lower) then st.1 + 1 else st.1
    (d, (indentChars st.1 ++ stripped) :: st.2)

/-- format_vba_code: cleanup, split on "\n", run the loop from depth 0,
rejoin with "\n". -/
def format_vba_code (s : String) : String :=
  ⟨intercalateNl (((splitNl (minimal_cleanup_for_non_python s).data).foldl vbaStep ((0 : Int), [])).2.reverse)⟩

/-- Spec-side restatement of the VBA indenter, following the spec's words
and its fixed check order: end-markers, then Else (dedent, print at the
shallower depth, re-indent), then start-markers after printing. -/
def vbaSpecGo : Int → List (List Char) → List (List Char)
  | _, [] => []
  | depth, line :: rest =>
    let stripped := stripChars line
    let lower := lowerChars stripped
    if vbaBlockEnd.any (fun kw => kw.isPrefixOf lower) then
      (indentChars (max (depth - 1) 0) ++ stripped) :: vbaSpecGo (max (depth - 1) 0) rest
    else if isElseLine lower then
      (indentChars (max (depth - 1) 0) ++ stripped) :: vbaSpecGo (max (depth - 1) 0 + 1) rest
    else if vbaBlockStart.any (fun kw => kw.isPrefixOf lower) then
      (indentChars depth ++ stripped) :: vbaSpecGo (depth + 1) rest
    else
      (indentChars depth ++ stripped) :: vbaSpecGo depth rest

/-- Spec-side VBA formatter over whole texts. -/
def formatVbaSpec (s : String) : String :=
  ⟨intercalateNl (vbaSpecGo 0 (splitNl (minimal_cleanup_for_non_python s).data))⟩

/- ------------------------------------------------------------------ -/
/- Lemma layer: basic string-primitive facts                           -/
/- ------------------------------------------------------------------ -/

theorem rstripChars_cons_eq (c : Char) (rest : List Char) :
    rstripChars (c :: rest) =
      match rstripChars rest with
      | [] => if isPySpace c then [] else [c]
      | h :: t => c :: h :: t := rfl

theorem rstripChars_sublist (l : List Char) : List.Sublist (rstripChars l) l := by
  induction l with
  | nil => simp [rstripChars]
  | cons c rest ih =>
    simp only [rstripChars]
    cases h : rstripChars rest with
    | nil =>
      by_cases hc : isPySpace c = true
      · simp [hc]
      · simp only [hc]
        simp only [Bool.false_eq_true, if_false]
        exact (List.nil_sublist rest).cons₂ c
    | cons h1 t1 =>
      rw [h] at ih
      exact ih.cons₂ c

theorem rstripChars_idem (l : List Char) : rstripChars (rstripChars l) = rstripChars l := by
  induction l with
  | nil => simp [rstripChars]
  | cons c rest ih =>
    cases h : rstripChars rest with
    | nil =>
      rw [rstripChars_cons_eq, h]
      by_cases hc : isPySpace c = true
      · simp [hc, rstripChars]
      · simp [hc, rstripChars_cons_eq, rstripChars]
    | cons h1 t1 =>
      rw [h] at ih
      have e1 : rstripChars (c :: rest) = c :: h1 :: t1 := by
        rw [rstripChars_cons_eq, h]
      rw [e1, rstripChars_cons_eq, ih]

theorem rstripChars_cons_congr (c : Char) {a b : List Char}
    (h : rstripChars a = rstripChars b) : rstripChars (c :: a) = rstripChars (c :: b) := by
  simp only [rstripChars, h]

theorem splitNl_ne_nil (l : List Char) : splitNl l ≠ [] := by
  induction l with
  | nil => simp [splitNl]
  | cons c rest ih =>
    by_cases hc : c = '\n'
    · simp [splitNl, hc]
    · cases h : splitNl rest with
      | nil => simp [splitNl, hc, h]
      | cons h1 t1 => simp [splitNl, hc, h]

theorem not_nl_of_mem_splitNl : ∀ {l x : List Char}, x ∈ splitNl l → '\n' ∉ x := by
  intro l
  induction l with
  | nil =>
    intro x hx
    simp [splitNl] at hx
    simp [hx]
  | cons c rest ih =>
    intro x hx
    by_cases hc : c = '\n'
    · rw [hc] at hx
      simp only [splitNl, if_pos rfl] at hx
      rcases List.mem_cons.1 hx with h | h
      · simp [h]
      · exact ih h
    · cases h : splitNl rest with
      | nil => exact absurd h (splitNl_ne_nil rest)
      | cons h1 t1 =>
        simp only [splitNl, hc, if_neg hc, h] at hx
        rcases List.mem_cons.1 hx with hx1 | hx1
        · subst hx1
          intro hmem
          rcases List.mem_cons.1 hmem with h2 | h2
          · exact hc h2.symm
          · exact ih (h ▸ List.mem_cons_self h1 t1) h2
        · exact ih (h ▸ List.mem_cons_of_mem h1 hx1)

theorem splitNl_of_not_nl : ∀ {l : List Char}, '\n' ∉ l → splitNl l = [l] := by
  intro l
  induction l with
  | nil => intro _; simp [splitNl]
  | cons c rest ih =>
    intro h
    have hc : c ≠ '\n' := fun e => h (e ▸ List.mem_cons_self c rest)
    have hrest : '\n' ∉ rest := fun e => h (List.mem_cons_of_mem c e)
    simp [splitNl, hc, ih hrest]

theorem splitNl_append_nl : ∀ {x m : List Char}, '\n' ∉ x →
    splitNl (x ++ '\n' :: m) = x :: splitNl m := by
  intro x
  induction x with
  | nil => intro m _; simp [splitNl]
  | cons c x' ih =>
    intro m h
    have hc : c ≠ '\n' := fun e => h (e ▸ List.mem_cons_self c x')
    have hx' : '\n' ∉ x' := fun e => h (List.mem_cons_of_mem c e)
    simp [splitNl, hc, ih hx']

theorem intercalateNl_nil : intercalateNl [] = [] := by
  simp [intercalateNl, List.intercalate]

theorem intercalateNl_singleton (x : List Char) : intercalateNl [x] = x := by
  simp [intercalateNl, List.intercalate]

theorem intercalateNl_cons₂ (x y : List Char) (t : List (List Char)) :
    intercalateNl (x :: y :: t) = x ++ '\n' :: intercalateNl (y :: t) := by
  simp [intercalateNl, List.intercalate, List.intersperse]

theorem splitNl_intercalateNl : ∀ {ls : List (List Char)}, ls ≠ [] →
    (∀ x ∈ ls, '\n' ∉ x) → splitNl (intercalateNl ls) = ls := by
  intro ls
  induction ls with
  | nil => intro h; exact absurd rfl h
  | cons x t ih =>
    intro _ hmem
    cases t with
    | nil =>
      rw [intercalateNl_singleton]
      exact splitNl_of_not_nl (hmem x (List.mem_cons_self x []))
    | cons y t' =>
      rw [intercalateNl_cons₂]
      rw [splitNl_append_nl (hmem x (List.mem_cons_self x (y :: t')))]
      rw [ih (by simp) (fun z hz => hmem z (List.mem_cons_of_mem x hz))]

theorem mem_intercalateNl : ∀ {ls : List (List Char)} {c : Char},
    c ∈ intercalateNl ls → c = '\n' ∨ ∃ x ∈ ls, c ∈ x := by
  intro ls
  induction ls with
  | nil => intro c hc; rw [intercalateNl_nil] at hc; cases hc
  | cons x t ih =>
    intro c hc
    cases t with
    | nil =>
      rw [intercalateNl_singleton] at hc
      exact Or.inr ⟨x, List.mem_cons_self x [], hc⟩
    | cons y t' =>
      rw [intercalateNl_cons₂] at hc
      rcases List.mem_append.1 hc with h | h
      · exact Or.inr ⟨x, List.mem_cons_self x (y :: t'), h⟩
      · rcases List.mem_cons.1 h with h1 | h1
        · exact Or.inl h1
        · rcases ih h1 with h2 | ⟨z, hz, hcz⟩
          · exact Or.inl h2
          · exact Or.inr ⟨z, List.mem_cons_of_mem x hz, hcz⟩

theorem getLast?_append_right {a b : List Char} (h : b ≠ []) :
    (a ++ b).getLast? = b.getLast? :=
  List.getLast?_append_of_ne_nil a h

theorem mem_of_getLast?_eq_some {α : Type} {l : List α} {c : α} (h : l.getLast? = some c) :
    c ∈ l := by
  have hmem : c ∈ l.getLast? := by rw [h]; rfl
  rcases List.mem_getLast?_eq_getLast hmem with ⟨hne, heq⟩
  exact heq ▸ List.getLast_mem hne

theorem intercalateNl_getLast? : ∀ {ls : List (List Char)} {x : List Char},
    ls.getLast? = some x → x ≠ [] → (intercalateNl ls).getLast? = x.getLast? := by
  intro ls
  induction ls with
  | nil => intro x h; cases h
  | cons a t ih =>
    intro x h hx
    cases t with
    | nil =>
      simp only [List.getLast?_singleton, Option.some.injEq] at h
      rw [intercalateNl_singleton, h]
    | cons y t' =>
      rw [List.getLast?_cons_cons] at h
      have hM : intercalateNl (y :: t') ≠ [] := by
        cases t' with
        | nil =>
          rw [intercalateNl_singleton]
          simp only [List.getLast?_singleton, Option.some.injEq] at h
          rw [h]
          exact hx
        | cons z t'' =>
          rw [intercalateNl_cons₂]
          simp
      rw [intercalateNl_cons₂]
      rw [getLast?_append_right (List.cons_ne_nil '\n' _)]
      rw [show ('\n' :: intercalateNl (y :: t')) = ['\n'] ++ intercalateNl (y :: t') from rfl]
      rw [getLast?_append_right hM]
      exact ih h hx

/- ------------------------------------------------------------------ -/
/- Lemma layer: minimal_cleanup_for_non_python                          -/
/- ------------------------------------------------------------------ -/

theorem mem_collapseBlanks : ∀ {b : Bool} {ls : List (List Char)} {x : List Char},
    x ∈ collapseBlanks b ls → x ∈ ls := by
  intro b ls
  induction ls generalizing b with
  | nil => intro x hx; simp [collapseBlanks] at hx
  | cons l rest ih =>
    intro x hx
    by_cases hb : isBlankLine l = true
    · cases b with
      | true =>
        simp only [collapseBlanks, hb, if_pos rfl] at hx
        exact List.mem_cons_of_mem l (ih hx)
      | false =>
        simp only [collapseBlanks, hb, if_pos rfl] at hx
        rcases List.mem_cons.1 hx with h | h
        · exact h ▸ List.mem_cons_self l rest
        · exact List.mem_cons_of_mem l (ih h)
    · simp only [collapseBlanks, hb] at hx
      simp only [Bool.false_eq_true, if_false] at hx
      rcases List.mem_cons.1 hx with h | h
      · exact h ▸ List.mem_cons_self l rest
      · exact List.mem_cons_of_mem l (ih h)

theorem collapseBlanks_sublist : ∀ (b : Bool) (ls : List (List Char)),
    List.Sublist (collapseBlanks b ls) ls := by
  intro b ls
  induction ls generalizing b with
  | nil => simp [collapseBlanks]
  | cons l rest ih =>
    by_cases hb : isBlankLine l = true
    · cases b with
      | true =>
        simp only [collapseBlanks, hb, if_pos rfl]
        exact (ih true).cons l
      | false =>
        simp only [collapseBlanks, hb, if_pos rfl]
        exact (ih true).cons₂ l
    · simp only [collapseBlanks, hb, Bool.false_eq_true, if_false]
      exact (ih false).cons₂ l

theorem collapseBlanks_true_head : ∀ {ls : List (List Char)} {y : List Char}
    {ys : List (List Char)}, collapseBlanks true ls = y :: ys → isBlankLine y = false := by
  intro ls
  induction ls with
  | nil => intro y ys h; cases h
  | cons l rest ih =>
    intro y ys h
    by_cases hb : isBlankLine l = true
    · simp only [collapseBlanks, hb, if_pos rfl] at h
      exact ih h
    · simp only [collapseBlanks, hb, Bool.false_eq_true, if_false] at h
      injection h with h1 _
      simp only [Bool.not_eq_true] at hb
      rw [← h1]
      exact hb

theorem noTwoBlankB_cons_elim {a : List Char} {rest : List (List Char)}
    (h : noTwoBlankB (a :: rest) = true) :
    noTwoBlankB rest = true ∧
      ∀ y ys, rest = y :: ys → (isBlankLine a && isBlankLine y) = false := by
  cases rest with
  | nil => exact ⟨rfl, fun y ys hx => nomatch hx⟩
  | cons b t =>
    have h' := h
    simp only [noTwoBlankB, Bool.and_eq_true, Bool.not_eq_true'] at h'
    exact ⟨h'.2, fun y ys hx => by injection hx with e1 _; rw [← e1]; exact h'.1⟩

theorem noTwoBlankB_collapseBlanks : ∀ (b : Bool) (ls : List (List Char)),
    noTwoBlankB (collapseBlanks b ls) = true := by
  intro b ls
  induction ls generalizing b with
  | nil => simp [collapseBlanks, noTwoBlankB]
  | cons l rest ih =>
    by_cases hb : isBlankLine l = true
    · cases b with
      | true =>
        simp only [collapseBlanks, hb, if_pos rfl]
        exact ih true
      | false =>
        simp only [collapseBlanks, hb, if_pos rfl]
        cases hC : collapseBlanks true rest with
        | nil => simp [noTwoBlankB]
        | cons y ys =>
          have hy : isBlankLine y = false := collapseBlanks_true_head hC
          have := ih true
          rw [hC] at this
          simp [noTwoBlankB, hy, this]
    · simp only [collapseBlanks, hb, Bool.false_eq_true, if_false]
      cases hC : collapseBlanks false rest with
      | nil => simp [noTwoBlankB]
      | cons y ys =>
        have := ih false
        rw [hC] at this
        simp [noTwoBlankB, hb, this]

theorem collapseBlanks_eq_self : ∀ {ls : List (List Char)} {b : Bool},
    noTwoBlankB ls = true →
    (b = true → ∀ y ys, ls = y :: ys → isBlankLine y = false) →
    collapseBlanks b ls = ls := by
  intro ls
  induction ls with
  | nil => intro b _ _; cases b <;> simp [collapseBlanks]
  | cons l rest ih =>
    intro b hno hhead
    rcases noTwoBlankB_cons_elim hno with ⟨hrest, hpair⟩
    by_cases hb : isBlankLine l = true
    · cases b with
      | true =>
        have hc := hhead rfl l rest rfl
        rw [hc] at hb
        cases hb
      | false =>
        have htail : collapseBlanks true rest = rest := by
          apply ih hrest
          intro _ y ys hys
          have hp := hpair y ys hys
          rw [hb, Bool.true_and] at hp
          exact hp
        simp [collapseBlanks, hb, htail]
    · have htail : collapseBlanks false rest = rest :=
        ih hrest (fun hcon => nomatch hcon)
      simp [collapseBlanks, hb, htail]

theorem countBlank_collapseBlanks : ∀ (ls : List (List Char)) (b : Bool),
    countBlank (collapseBlanks b ls) = blankRunsAux b ls := by
  intro ls
  induction ls with
  | nil => intro b; rfl
  | cons l rest ih =>
    intro b
    by_cases hb : isBlankLine l = true
    · cases b with
      | true =>
        rw [show collapseBlanks true (l :: rest) = collapseBlanks true rest by
          simp [collapseBlanks, hb]]
        rw [show blankRunsAux true (l :: rest) = blankRunsAux true rest by
          simp [blankRunsAux, hb]]
        exact ih true
      | false =>
        rw [show collapseBlanks false (l :: rest) = l :: collapseBlanks true rest by
          simp [collapseBlanks, hb]]
        rw [show countBlank (l :: collapseBlanks true rest)
            = 1 + countBlank (collapseBlanks true rest) by simp [countBlank, hb]]
        rw [show blankRunsAux false (l :: rest) = 1 + blankRunsAux true rest by
          simp [blankRunsAux, hb]]
        rw [ih true]
    · rw [show collapseBlanks b (l :: rest) = l :: collapseBlanks false rest by
        cases b <;> simp [collapseBlanks, hb]]
      rw [show countBlank (l :: collapseBlanks false rest)
          = countBlank (collapseBlanks false rest) by simp [countBlank, hb]]
      rw [show blankRunsAux b (l :: rest) = blankRunsAux false rest by
        cases b <;> simp [blankRunsAux, hb]]
      exact ih false

theorem minimalCleanupLines_ne_nil (l : List Char) : minimalCleanupLines l ≠ [] := by
  unfold minimalCleanupLines
  cases h : (splitNl l).map rstripChars with
  | nil =>
    exact absurd (List.map_eq_nil_iff.1 h) (splitNl_ne_nil l)
  | cons x t =>
    by_cases hb : isBlankLine x = true <;> simp [collapseBlanks, hb]

theorem rstrip_fixed_of_mem_cleanup {l x : List Char}
    (hx : x ∈ minimalCleanupLines l) : rstripChars x = x := by
  have hmem : x ∈ (splitNl l).map rstripChars := mem_collapseBlanks hx
  rcases List.mem_map.1 hmem with ⟨y, _, hy⟩
  rw [← hy]
  exact rstripChars_idem y

theorem not_nl_of_mem_cleanup {l x : List Char}
    (hx : x ∈ minimalCleanupLines l) : '\n' ∉ x := by
  have hmem : x ∈ (splitNl l).map rstripChars := mem_collapseBlanks hx
  rcases List.mem_map.1 hmem with ⟨y, hy, hxy⟩
  intro hc
  exact not_nl_of_mem_splitNl hy ((rstripChars_sublist y).subset (hxy ▸ hc))

theorem minimalCleanupLines_cleanup (s : String) :
    minimalCleanupLines (minimal_cleanup_for_non_python s).data
      = minimalCleanupLines s.data := by
  have hdata : (minimal_cleanup_for_non_python s).data
      = intercalateNl (minimalCleanupLines s.data) := rfl
  rw [hdata]
  rw [show minimalCleanupLines (intercalateNl (minimalCleanupLines s.data))
      = collapseBlanks false
          ((splitNl (intercalateNl (minimalCleanupLines s.data))).map rstripChars) from rfl]
  rw [splitNl_intercalateNl (minimalCleanupLines_ne_nil s.data)
    (fun x hx => not_nl_of_mem_cleanup hx)]
  rw [List.map_congr_left (fun x hx => rstrip_fixed_of_mem_cleanup hx)]
  rw [List.map_id']
  exact collapseBlanks_eq_self (noTwoBlankB_collapseBlanks false _) (fun h => nomatch h)

theorem map_rstrip_splitNl_toCrlf : ∀ l : List Char,
    (splitNl (toCrlf l)).map rstripChars = (splitNl l).map rstripChars := by
  intro l
  induction l with
  | nil => rfl
  | cons c rest ih =>
    by_cases hc : c = '\n'
    · subst hc
      have e1 : toCrlf ('\n' :: rest) = '\r' :: '\n' :: toCrlf rest := by simp [toCrlf]
      have e2 : splitNl ('\r' :: '\n' :: toCrlf rest) = ['\r'] :: splitNl (toCrlf rest) := by
        simp [splitNl]
      have e3 : splitNl ('\n' :: rest) = [] :: splitNl rest := by simp [splitNl]
      rw [e1, e2, e3, List.map_cons, List.map_cons, ih]
      have e4 : rstripChars ['\r'] = rstripChars [] := by decide
      rw [e4]
    · have e1 : toCrlf (c :: rest) = c :: toCrlf rest := by simp [toCrlf, hc]
      cases h1 : splitNl (toCrlf rest) with
      | nil => exact absurd h1 (splitNl_ne_nil _)
      | cons x1 t1 =>
        cases h2 : splitNl rest with
        | nil => exact absurd h2 (splitNl_ne_nil _)
        | cons x2 t2 =>
          rw [h1, h2, List.map_cons, List.map_cons] at ih
          have hx : rstripChars x1 = rstripChars x2 := (List.cons.injEq _ _ _ _ ▸ ih).1
          have ht : t1.map rstripChars = t2.map rstripChars := (List.cons.injEq _ _ _ _ ▸ ih).2
          rw [e1]
          have e2 : splitNl (c :: toCrlf rest) = (c :: x1) :: t1 := by
            simp [splitNl, hc, h1]
          have e3 : splitNl (c :: rest) = (c :: x2) :: t2 := by
            simp [splitNl, hc, h2]
          rw [e2, e3, List.map_cons, List.map_cons, ht, rstripChars_cons_congr c hx]

/- ------------------------------------------------------------------ -/
/- Claim theorems for Generic Cleanup (C6, C7)                         -/
/- ------------------------------------------------------------------ -/

/-- C6: Generic Cleanup is idempotent: for every input string, applying
minimal_cleanup_for_non_python twice yields exactly the result of applying
it once. -/
theorem c6_cleanup_idempotent (s : String) :
    minimal_cleanup_for_non_python (minimal_cleanup_for_non_python s)
      = minimal_cleanup_for_non_python s := by
  show String.mk (intercalateNl (minimalCleanupLines (minimal_cleanup_for_non_python s).data))
      = minimal_cleanup_for_non_python s
  rw [minimalCleanupLines_cleanup]
  rfl

/-- C7: for every input, the Generic Cleanup output lines carry no trailing
whitespace (each is rstrip-fixed), no two consecutive output lines are blank,
the output is exactly the kept lines rejoined with single newline separators,
the kept lines are a subsequence of the rstripped input lines (content
otherwise unchanged), rewriting the input's "\n" terminators as "\r\n" does
not change the output (line-ending style is normalized to "\n"), and the
output contains exactly one blank line per maximal run of consecutive blank
lines of the rstripped input (so every run of two or more blank lines
collapses to exactly one surviving blank line, never to zero; together with
the subsequence conjunct and the no-two-consecutive-blanks conjunct this
pins the survivor to one line of its own run), as the concrete two-run
example "a\n\n\n\nb\n\nc" becoming "a\n\nb\n\nc" also shows. -/
theorem c7_cleanup_output_shape (s : String) :
    (∀ l ∈ minimalCleanupLines s.data, rstripChars l = l) ∧
    noTwoBlankB (minimalCleanupLines s.data) = true ∧
    (minimal_cleanup_for_non_python s).data = intercalateNl (minimalCleanupLines s.data) ∧
    List.Sublist (minimalCleanupLines s.data) ((splitNl s.data).map rstripChars) ∧
    minimal_cleanup_for_non_python ⟨toCrlf s.data⟩ = minimal_cleanup_for_non_python s ∧
    countBlank (minimalCleanupLines s.data) = blankRuns ((splitNl s.data).map rstripChars) ∧
    minimal_cleanup_for_non_python "a\n\n\n\nb\n\nc" = "a\n\nb\n\nc" := by
  refine ⟨fun l hl => rstrip_fixed_of_mem_cleanup hl,
    noTwoBlankB_collapseBlanks false _, rfl, collapseBlanks_sublist false _, ?_,
    countBlank_collapseBlanks ((splitNl s.data).map rstripChars) false, by decide⟩
  have hlines : minimalCleanupLines (toCrlf s.data) = minimalCleanupLines s.data := by
    unfold minimalCleanupLines
    rw [map_rstrip_splitNl_toCrlf]
  show String.mk (intercalateNl (minimalCleanupLines (toCrlf s.data)))
      = String.mk (intercalateNl (minimalCleanupLines s.data))
  rw [hlines]

/-- C7 witness: on the concrete input "a  \n\n\nb", the kept line "a" is in
the cleanup's line list and is rstrip-fixed. -/
theorem c7_cleanup_output_shape_witness :
    "a".data ∈ minimalCleanupLines ("a  \n\n\nb".data) ∧ rstripChars "a".data = "a".data :=
  ⟨by decide, (c7_cleanup_output_shape "a  \n\n\nb").1 "a".data (by decide)⟩

/- ------------------------------------------------------------------ -/
/- Lemma layer: SAS / VBA keyword-driven indenters                     -/
/- ------------------------------------------------------------------ -/

theorem sas_foldl_spec : ∀ (ls : List (List Char)) (d : Int) (acc : List (List Char)),
    ((ls.foldl sasStep (d, acc)).2).reverse = acc.reverse ++ sasSpecGo d ls := by
  intro ls
  induction ls with
  | nil => intro d acc; simp [sasSpecGo]
  | cons line rest ih =>
    intro d acc
    rw [List.foldl_cons]
    by_cases hend : sasBlockEnd.any (fun kw => kw.isPrefixOf (lowerChars (stripChars line))) = true
    · have e1 : sasStep (d, acc) line
          = (max (d - 1) 0, (indentChars (max (d - 1) 0) ++ stripChars line) :: acc) := by
        simp [sasStep, hend]
      have e2 : sasSpecGo d (line :: rest)
          = (indentChars (max (d - 1) 0) ++ stripChars line) :: sasSpecGo (max (d - 1) 0) rest := by
        simp [sasSpecGo, hend]
      rw [e1, ih, e2]
      simp
    · by_cases hstart : sasBlockStart.any (fun kw => kw.isPrefixOf (lowerChars (stripChars line))) = true
      · have e1 : sasStep (d, acc) line
            = (d + 1, (indentChars d ++ stripChars line) :: acc) := by
          simp [sasStep, hend, hstart]
        have e2 : sasSpecGo d (line :: rest)
            = (indentChars d ++ stripChars line) :: sasSpecGo (d + 1) rest := by
          simp [sasSpecGo, hend, hstart]
        rw [e1, ih, e2]
        simp
      · have e1 : sasStep (d, acc) line
            = (d, (indentChars d ++ stripChars line) :: acc) := by
          simp [sasStep, hend, hstart]
        have e2 : sasSpecGo d (line :: rest)
            = (indentChars d ++ stripChars line) :: sasSpecGo d rest := by
          simp [sasSpecGo, hend, hstart]
        rw [e1, ih, e2]
        simp

theorem vba_foldl_spec : ∀ (ls : List (List Char)) (d : Int) (acc : List (List Char)),
    ((ls.foldl vbaStep (d, acc)).2).reverse = acc.reverse ++ vbaSpecGo d ls := by
  intro ls
  induction ls with
  | nil => intro d acc; simp [vbaSpecGo]
  | cons line rest ih =>
    intro d acc
    rw [List.foldl_cons]
    by_cases hend : vbaBlockEnd.any (fun kw => kw.isPrefixOf (lowerChars (stripChars line))) = true
    · have e1 : vbaStep (d, acc) line
          = (max (d - 1) 0, (indentChars (max (d - 1) 0) ++ stripChars line) :: acc) := by
        simp [vbaStep, hend]
      have e2 : vbaSpecGo d (line :: rest)
          = (indentChars (max (d - 1) 0) ++ stripChars line) :: vbaSpecGo (max (d - 1) 0) rest := by
        simp [vbaSpecGo, hend]
      rw [e1, ih, e2]
      simp
    · by_cases helse : isElseLine (lowerChars (stripChars line)) = true
      · have e1 : vbaStep (d, acc) line
            = (max (d - 1) 0 + 1, (indentChars (max (d - 1) 0) ++ stripChars line) :: acc) := by
          simp [vbaStep, hend, helse]
        have e2 : vbaSpecGo d (line :: rest)
            = (indentChars (max (d - 1) 0) ++ stripChars line)
                :: vbaSpecGo (max (d - 1) 0 + 1) rest := by
          simp [vbaSpecGo, hend, helse]
        rw [e1, ih, e2]
        simp
      · by_cases hstart : vbaBlockStart.any (fun kw => kw.isPrefixOf (lowerChars (stripChars line))) = true
        · have e1 : vbaStep (d, acc) line
              = (d + 1, (indentChars d ++ stripChars line) :: acc) := by
            simp [vbaStep, hend, helse, hstart]
          have e2 : vbaSpecGo d (line :: rest)
              = (indentChars d ++ stripChars line) :: vbaSpecGo (d + 1) rest := by
            simp [vbaSpecGo, hend, helse, hstart]
          rw [e1, ih, e2]
          simp
        · have e1 : vbaStep (d, acc) line
              = (d, (indentChars d ++ stripChars line) :: acc) := by
            simp [vbaStep, hend, helse, hstart]
          have e2 : vbaSpecGo d (line :: rest)
              = (indentChars d ++ stripChars line) :: vbaSpecGo d rest := by
            simp [vbaSpecGo, hend, helse, hstart]
          rw [e1, ih, e2]
          simp

theorem sas_depth_nonneg : ∀ (ls : List (List Char)) (st : Int × List (List Char)),
    0 ≤ st.1 → 0 ≤ (ls.foldl sasStep st).1 := by
  intro ls
  induction ls with
  | nil => intro st h; exact h
  | cons line rest ih =>
    intro st h
    rw [List.foldl_cons]
    apply ih
    by_cases hend : sasBlockEnd.any (fun kw => kw.isPrefixOf (lowerChars (stripChars line))) = true
    · have e1 : (sasStep st line).1 = max (st.1 - 1) 0 := by simp [sasStep, hend]
      rw [e1]
      exact le_max_right _ _
    · by_cases hstart : sasBlockStart.any (fun kw => kw.isPrefixOf (lowerChars (stripChars line))) = true
      · have e1 : (sasStep st line).1 = st.1 + 1 := by simp [sasStep, hend, hstart]
        rw [e1]
        omega
      · have e1 : (sasStep st line).1 = st.1 := by simp [sasStep, hend, hstart]
        rw [e1]
        exact h

theorem vba_depth_nonneg : ∀ (ls : List (List Char)) (st : Int × List (List Char)),
    0 ≤ st.1 → 0 ≤ (ls.foldl vbaStep st).1 := by
  intro ls
  induction ls with
  | nil => intro st h; exact h
  | cons line rest ih =>
    intro st h
    rw [List.foldl_cons]
    apply ih
    by_cases hend : vbaBlockEnd.any (fun kw => kw.isPrefixOf (lowerChars (stripChars line))) = true
    · have e1 : (vbaStep st line).1 = max (st.1 - 1) 0 := by simp [vbaStep, hend]
      rw [e1]
      exact le_max_right _ _
    · by_cases helse : isElseLine (lowerChars (stripChars line)) = true
      · have e1 : (vbaStep st line).1 = max (st.1 - 1) 0 + 1 := by
          simp [vbaStep, hend, helse]
        rw [e1]
        have h2 : (0 : Int) ≤ max (st.1 - 1) 0 := le_max_right _ _
        omega
      · by_cases hstart : vbaBlockStart.any (fun kw => kw.isPrefixOf (lowerChars (stripChars line))) = true
        · have e1 : (vbaStep st line).1 = st.1 + 1 := by
            simp [vbaStep, hend, helse, hstart]
          rw [e1]
          omega
        · have e1 : (vbaStep st line).1 = st.1 := by
            simp [vbaStep, hend, helse, hstart]
          rw [e1]
          exact h

/- ------------------------------------------------------------------ -/
/- Lemma layer: fix_block_indentation_python                           -/
/- ------------------------------------------------------------------ -/

theorem stripChars_sublist (l : List Char) : List.Sublist (stripChars l) l :=
  (rstripChars_sublist (lstripChars l)).trans (List.dropWhile_sublist isPySpace)

theorem getLast?_cons_of_ne_nil {α : Type} (a : α) {l : List α} (h : l ≠ []) :
    (a :: l).getLast? = l.getLast? := by
  cases l with
  | nil => exact absurd rfl h
  | cons b t => exact List.getLast?_cons_cons

theorem ne_nil_of_getLast?_eq_some {α : Type} {l : List α} {a : α}
    (h : l.getLast? = some a) : l ≠ [] := by
  intro e
  subst e
  cases h

theorem exists_getLast?_of_ne_nil {α : Type} {l : List α} (h : l ≠ []) :
    ∃ a, l.getLast? = some a := by
  cases hl : l.getLast? with
  | none => exact absurd (List.getLast?_eq_none_iff.1 hl) h
  | some a => exact ⟨a, rfl⟩

theorem innerFix_length (lvl sz : Nat) : ∀ pls : List (List Char × Nat),
    (innerFix lvl sz pls).length = pls.length := by
  intro pls
  induction pls with
  | nil => rfl
  | cons y rest ih =>
    by_cases hb : stripChars y.1 = []
    · simp [innerFix, hb, ih]
    · by_cases hle : y.2 ≤ lvl <;> simp [innerFix, hb, hle]

theorem outerFixFuel_congr (sz : Nat) : ∀ (f g : Nat) (pls : List (List Char × Nat)),
    pls.length ≤ f → pls.length ≤ g → outerFixFuel sz f pls = outerFixFuel sz g pls := by
  intro f
  induction f with
  | zero =>
    intro g pls h1 _
    rw [List.length_eq_zero.1 (Nat.le_zero.1 h1)]
    cases g <;> rfl
  | succ f' ih =>
    intro g pls h1 h2
    cases pls with
    | nil => cases g <;> rfl
    | cons x rest =>
      cases g with
      | zero => simp at h2
      | succ g' =>
        show x :: outerFixFuel sz f' (if isOpenerLine x.1 then innerFix x.2 sz rest else rest)
          = x :: outerFixFuel sz g' (if isOpenerLine x.1 then innerFix x.2 sz rest else rest)
        have hlen : (if isOpenerLine x.1 then innerFix x.2 sz rest else rest).length
            = rest.length := by
          by_cases ho : isOpenerLine x.1 = true <;> simp [ho, innerFix_length]
        rw [ih g' _ (by rw [hlen]; exact Nat.lt_succ_iff.1 (Nat.lt_of_lt_of_le (by simp) h1))
          (by rw [hlen]; exact Nat.lt_succ_iff.1 (Nat.lt_of_lt_of_le (by simp) h2))]

theorem outerFix_cons (sz : Nat) (x : List Char × Nat) (rest : List (List Char × Nat)) :
    outerFix sz (x :: rest)
      = x :: outerFix sz (if isOpenerLine x.1 then innerFix x.2 sz rest else rest) := by
  show outerFixFuel sz (x :: rest).length (x :: rest) = _
  rw [List.length_cons]
  show x :: outerFixFuel sz rest.length (if isOpenerLine x.1 then innerFix x.2 sz rest else rest)
    = _
  have hlen : (if isOpenerLine x.1 then innerFix x.2 sz rest else rest).length
      = rest.length := by
    by_cases ho : isOpenerLine x.1 = true <;> simp [ho, innerFix_length]
  rw [outerFixFuel_congr sz rest.length
    (if isOpenerLine x.1 then innerFix x.2 sz rest else rest).length _
    (by rw [hlen]) le_rfl]
  rfl

theorem innerFix_eq_firstNonBlank : ∀ (lvl sz : Nat) (pls : List (List Char × Nat)),
    innerFix lvl sz pls =
      match firstNonBlank pls with
      | none => pls
      | some (j, x) =>
        if x.2 ≤ lvl then pls.set j (mkSpaces (lvl + sz) ++ stripChars x.1, lvl + sz)
        else pls := by
  intro lvl sz pls
  induction pls with
  | nil => rfl
  | cons y rest ih =>
    by_cases hb : stripChars y.1 = []
    · have e1 : innerFix lvl sz (y :: rest) = y :: innerFix lvl sz rest := by
        simp [innerFix, hb]
      have e2 : firstNonBlank (y :: rest)
          = (firstNonBlank rest).map (fun p => (p.1 + 1, p.2)) := by
        simp [firstNonBlank, hb]
      rw [e1, e2, ih]
      cases hf : firstNonBlank rest with
      | none => simp
      | some p =>
        obtain ⟨j, x⟩ := p
        simp only [Option.map_some']
        by_cases hle : x.2 ≤ lvl
        · simp [hle, List.set_cons_succ]
        · simp [hle]
    · have e1 : innerFix lvl sz (y :: rest)
          = if y.2 ≤ lvl then (mkSpaces (lvl + sz) ++ stripChars y.1, lvl + sz) :: rest
            else y :: rest := by
        simp [innerFix, hb]
      have e2 : firstNonBlank (y :: rest) = some (0, y) := by
        simp [firstNonBlank, hb]
      rw [e1, e2]
      by_cases hle : y.2 ≤ lvl <;> simp [hle]

theorem innerFix_getElem?_blank : ∀ (lvl sz : Nat) (pls : List (List Char × Nat))
    (m : Nat) (x : List Char × Nat),
    pls[m]? = some x → stripChars x.1 = [] → (innerFix lvl sz pls)[m]? = some x := by
  intro lvl sz pls
  induction pls with
  | nil => intro m x h _; rw [List.getElem?_nil] at h; cases h
  | cons y rest ih =>
    intro m x hget hblank
    by_cases hb : stripChars y.1 = []
    · have e1 : innerFix lvl sz (y :: rest) = y :: innerFix lvl sz rest := by
        simp [innerFix, hb]
      rw [e1]
      cases m with
      | zero => simpa using hget
      | succ m' =>
        rw [List.getElem?_cons_succ] at hget ⊢
        exact ih m' x hget hblank
    · cases m with
      | zero =>
        rw [List.getElem?_cons_zero] at hget
        injection hget with hxy
        rw [← hxy] at hblank
        exact absurd hblank hb
      | succ m' =>
        have e1 : innerFix lvl sz (y :: rest)
            = if y.2 ≤ lvl then (mkSpaces (lvl + sz) ++ stripChars y.1, lvl + sz) :: rest
              else y :: rest := by
          simp [innerFix, hb]
        rw [e1]
        rw [List.getElem?_cons_succ] at hget
        by_cases hle : y.2 ≤ lvl
        · rw [if_pos hle, List.getElem?_cons_succ]
          exact hget
        · rw [if_neg hle, List.getElem?_cons_succ]
          exact hget

theorem slnkFuel_chars : ∀ (f : Nat) (l : List Char), l.length ≤ f →
    ∀ x ∈ slnkFuel f l, '\n' ∉ x ∧ '\r' ∉ x := by
  intro f
  induction f with
  | zero =>
    intro l h1 x hx
    rw [List.length_eq_zero.1 (Nat.le_zero.1 h1)] at hx
    cases hx
  | succ f' ih =>
    intro l h1 x hx
    cases l with
    | nil => cases hx
    | cons c rest =>
      have hrest : rest.length ≤ f' := by
        rw [List.length_cons] at h1
        omega
      by_cases hc : c = '\n'
      · rw [show slnkFuel (f' + 1) (c :: rest) = [] :: slnkFuel f' rest by
          simp [slnkFuel, hc]] at hx
        rcases List.mem_cons.1 hx with h | h
        · simp [h]
        · exact ih rest hrest x h
      · by_cases hr : c = '\r'
        · cases rest with
          | nil =>
            rw [show slnkFuel (f' + 1) (c :: ([] : List Char))
                = [] :: slnkFuel f' [] by simp [slnkFuel, hc, hr]] at hx
            rcases List.mem_cons.1 hx with h | h
            · simp [h]
            · exact ih [] (by simp) x h
          | cons c2 rest2 =>
            by_cases hc2 : c2 = '\n'
            · rw [show slnkFuel (f' + 1) (c :: c2 :: rest2)
                  = [] :: slnkFuel f' rest2 by simp [slnkFuel, hc, hr, hc2]] at hx
              rcases List.mem_cons.1 hx with h | h
              · simp [h]
              · exact ih rest2 (by rw [List.length_cons, List.length_cons] at h1; omega) x h
            · rw [show slnkFuel (f' + 1) (c :: c2 :: rest2)
                  = [] :: slnkFuel f' (c2 :: rest2) by simp [slnkFuel, hc, hr, hc2]] at hx
              rcases List.mem_cons.1 hx with h | h
              · simp [h]
              · exact ih (c2 :: rest2) hrest x h
        · cases hsp : slnkFuel f' rest with
          | nil =>
            rw [show slnkFuel (f' + 1) (c :: rest) = [[c]] by
              simp [slnkFuel, hc, hr, hsp]] at hx
            rcases List.mem_cons.1 hx with h | h
            · subst h
              constructor <;> intro hm <;> rcases List.mem_singleton.1 hm with rfl
              · exact hc rfl
              · exact hr rfl
            · cases h
          | cons h1' t1 =>
            rw [show slnkFuel (f' + 1) (c :: rest) = (c :: h1') :: t1 by
              simp [slnkFuel, hc, hr, hsp]] at hx
            rcases List.mem_cons.1 hx with h | h
            · subst h
              have hh1 := ih rest hrest h1' (hsp ▸ List.mem_cons_self h1' t1)
              constructor <;> intro hm <;> rcases List.mem_cons.1 hm with rfl | hm2
              · exact hc rfl
              · exact hh1.1 hm2
              · exact hr rfl
              · exact hh1.2 hm2
            · exact ih rest hrest x (hsp ▸ List.mem_cons_of_mem h1' h)

theorem splitlinesNoKeep_chars {l x : List Char} (hx : x ∈ splitlinesNoKeep l) :
    '\n' ∉ x ∧ '\r' ∉ x :=
  slnkFuel_chars l.length l le_rfl x hx

theorem innerFix_chars : ∀ (lvl sz : Nat) (pls : List (List Char × Nat)),
    (∀ y ∈ pls, '\n' ∉ y.1 ∧ '\r' ∉ y.1) →
    ∀ y ∈ innerFix lvl sz pls, '\n' ∉ y.1 ∧ '\r' ∉ y.1 := by
  intro lvl sz pls
  induction pls with
  | nil => intro _ y hy; cases hy
  | cons z rest ih =>
    intro hall y hy
    by_cases hb : stripChars z.1 = []
    · rw [show innerFix lvl sz (z :: rest) = z :: innerFix lvl sz rest by
        simp [innerFix, hb]] at hy
      rcases List.mem_cons.1 hy with h | h
      · exact h ▸ hall z (List.mem_cons_self z rest)
      · exact ih (fun w hw => hall w (List.mem_cons_of_mem z hw)) y h
    · rw [show innerFix lvl sz (z :: rest)
          = if z.2 ≤ lvl then (mkSpaces (lvl + sz) ++ stripChars z.1, lvl + sz) :: rest
            else z :: rest by simp [innerFix, hb]] at hy
      by_cases hle : z.2 ≤ lvl
      · rw [if_pos hle] at hy
        rcases List.mem_cons.1 hy with h | h
        · subst h
          have hz := hall z (List.mem_cons_self z rest)
          constructor <;> intro hm <;> rcases List.mem_append.1 hm with hm1 | hm1
          · exact absurd (List.eq_of_mem_replicate hm1) (by decide)
          · exact hz.1 ((stripChars_sublist z.1).subset hm1)
          · exact absurd (List.eq_of_mem_replicate hm1) (by decide)
          · exact hz.2 ((stripChars_sublist z.1).subset hm1)
        · exact hall y (List.mem_cons_of_mem z h)
      · rw [if_neg hle] at hy
        exact hall y hy

theorem outerFixFuel_chars (sz : Nat) : ∀ (f : Nat) (pls : List (List Char × Nat)),
    (∀ y ∈ pls, '\n' ∉ y.1 ∧ '\r' ∉ y.1) →
    ∀ y ∈ outerFixFuel sz f pls, '\n' ∉ y.1 ∧ '\r' ∉ y.1 := by
  intro f
  induction f with
  | zero =>
    intro pls hall y hy
    cases pls with
    | nil => cases hy
    | cons x rest => exact hall y hy
  | succ f' ih =>
    intro pls hall y hy
    cases pls with
    | nil => cases hy
    | cons x rest =>
      rw [show outerFixFuel sz (f' + 1) (x :: rest)
          = x :: outerFixFuel sz f' (if isOpenerLine x.1 then innerFix x.2 sz rest else rest)
          from rfl] at hy
      rcases List.mem_cons.1 hy with h | h
      · exact h ▸ hall x (List.mem_cons_self x rest)
      · have hrest : ∀ w ∈ rest, '\n' ∉ w.1 ∧ '\r' ∉ w.1 :=
          fun w hw => hall w (List.mem_cons_of_mem x hw)
        have hrest' : ∀ w ∈ (if isOpenerLine x.1 then innerFix x.2 sz rest else rest),
            '\n' ∉ w.1 ∧ '\r' ∉ w.1 := by
          by_cases ho : isOpenerLine x.1 = true
          · rw [if_pos ho]
            exact innerFix_chars x.2 sz rest hrest
          · rw [if_neg ho]
            exact hrest
        exact ih _ hrest' y h

theorem innerFix_lastNE : ∀ (lvl sz : Nat) (pls : List (List Char × Nat))
    (z : List Char × Nat), pls.getLast? = some z → z.1 ≠ [] →
    ∃ z', (innerFix lvl sz pls).getLast? = some z' ∧ z'.1 ≠ [] := by
  intro lvl sz pls
  induction pls with
  | nil => intro z h; cases h
  | cons y rest ih =>
    intro z hz hzne
    cases rest with
    | nil =>
      simp only [List.getLast?_singleton, Option.some.injEq] at hz
      subst hz
      by_cases hb : stripChars y.1 = []
      · exact ⟨y, by simp [innerFix, hb], hzne⟩
      · by_cases hle : y.2 ≤ lvl
        · refine ⟨(mkSpaces (lvl + sz) ++ stripChars y.1, lvl + sz), ?_, ?_⟩
          · simp [innerFix, hb, hle]
          · exact List.append_ne_nil_of_right_ne_nil _ hb
        · exact ⟨y, by simp [innerFix, hb, hle], hzne⟩
    | cons y2 rest2 =>
      rw [List.getLast?_cons_cons] at hz
      by_cases hb : stripChars y.1 = []
      · rcases ih z hz hzne with ⟨z', hz', hz'ne⟩
        refine ⟨z', ?_, hz'ne⟩
        rw [show innerFix lvl sz (y :: y2 :: rest2)
            = y :: innerFix lvl sz (y2 :: rest2) by simp [innerFix, hb]]
        rw [getLast?_cons_of_ne_nil y (ne_nil_of_getLast?_eq_some hz')]
        exact hz'
      · by_cases hle : y.2 ≤ lvl
        · refine ⟨z, ?_, hzne⟩
          rw [show innerFix lvl sz (y :: y2 :: rest2)
              = (mkSpaces (lvl + sz) ++ stripChars y.1, lvl + sz) :: y2 :: rest2 by
            simp [innerFix, hb, hle]]
          rw [List.getLast?_cons_cons]
          exact hz
        · refine ⟨z, ?_, hzne⟩
          rw [show innerFix lvl sz (y :: y2 :: rest2) = y :: y2 :: rest2 by
            simp [innerFix, hb, hle]]
          rw [List.getLast?_cons_cons]
          exact hz

theorem outerFixFuel_lastNE (sz : Nat) : ∀ (f : Nat) (pls : List (List Char × Nat))
    (z : List Char × Nat), pls.getLast? = some z → z.1 ≠ [] →
    ∃ z', (outerFixFuel sz f pls).getLast? = some z' ∧ z'.1 ≠ [] := by
  intro f
  induction f with
  | zero =>
    intro pls z hz hzne
    cases pls with
    | nil => cases hz
    | cons x rest => exact ⟨z, hz, hzne⟩
  | succ f' ih =>
    intro pls z hz hzne
    cases pls with
    | nil => cases hz
    | cons x rest =>
      rw [show outerFixFuel sz (f' + 1) (x :: rest)
          = x :: outerFixFuel sz f' (if isOpenerLine x.1 then innerFix x.2 sz rest else rest)
          from rfl]
      cases rest with
      | nil =>
        simp only [List.getLast?_singleton, Option.some.injEq] at hz
        subst hz
        have e1 : (if isOpenerLine x.1 then innerFix x.2 sz [] else [])
            = ([] : List (List Char × Nat)) := by
          by_cases ho : isOpenerLine x.1 = true <;> simp [ho, innerFix]
        rw [e1]
        cases f' <;> exact ⟨x, rfl, hzne⟩
      | cons y2 rest2 =>
        rw [List.getLast?_cons_cons] at hz
        have hmid : ∃ zm, (if isOpenerLine x.1 then innerFix x.2 sz (y2 :: rest2)
            else (y2 :: rest2)).getLast? = some zm ∧ zm.1 ≠ [] := by
          by_cases ho : isOpenerLine x.1 = true
          · rw [if_pos ho]
            exact innerFix_lastNE x.2 sz (y2 :: rest2) z hz hzne
          · rw [if_neg ho]
            exact ⟨z, hz, hzne⟩
        rcases hmid with ⟨zm, hzm, hzmne⟩
        rcases ih _ zm hzm hzmne with ⟨z', hz', hz'ne⟩
        refine ⟨z', ?_, hz'ne⟩
        rw [getLast?_cons_of_ne_nil x (ne_nil_of_getLast?_eq_some hz')]
        exact hz'

/- ------------------------------------------------------------------ -/
/- Claim theorems for the keyword-driven indenters (C4, C5, C9)        -/
/- ------------------------------------------------------------------ -/

/-- C4: the SAS indenter emits each block-end line ("run;", "quit;"
prefix, case-insensitive, on the stripped text) at the post-decrement
depth (decrement with floor 0 happens before printing), and every other
line at the current depth with the depth incremented afterwards exactly
when the line is a block-start line ("proc ", "data " prefix): the loop
agrees with the spec-side per-line description on every input, and
"proc sort;\nrun;" comes out with both lines at indent 0. -/
theorem c4_sas_indenter :
    (∀ s : String, format_sas_code s = formatSasSpec s) ∧
    format_sas_code "proc sort;\nrun;" = "proc sort;\nrun;" := by
  constructor
  · intro s
    show String.mk
        (intercalateNl
          (((splitNl (minimal_cleanup_for_non_python s).data).foldl sasStep ((0 : Int), [])).2.reverse))
      = String.mk (intercalateNl (sasSpecGo 0 (splitNl (minimal_cleanup_for_non_python s).data)))
    rw [sas_foldl_spec]
    simp
  · decide

/-- C5: the VBA indenter handles an "else"/"else " line as
dedent-print-reindent (decrement with floor 0, print at that shallower
depth, increment back), checking end-markers first, then the Else case,
then start-markers: the loop agrees with the spec-side per-line
description (in that fixed order) on every input, and
"If x Then\nElse\nEnd If" comes out with all three lines at depth 0. -/
theorem c5_vba_indenter :
    (∀ s : String, format_vba_code s = formatVbaSpec s) ∧
    format_vba_code "If x Then\nElse\nEnd If" = "If x Then\nElse\nEnd If" := by
  constructor
  · intro s
    show String.mk
        (intercalateNl
          (((splitNl (minimal_cleanup_for_non_python s).data).foldl vbaStep ((0 : Int), [])).2.reverse))
      = String.mk (intercalateNl (vbaSpecGo 0 (splitNl (minimal_cleanup_for_non_python s).data)))
    rw [vba_foldl_spec]
    simp
  · decide

/-- C9: the depth counter of each keyword-driven indenter starts at 0
(the fold over the empty prefix yields 0, freshly per invocation) and is
non-negative after processing any list of lines, SAS and VBA alike
(every prefix of a run is itself such a list). -/
theorem c9_depth_invariant :
    (∀ ls : List (List Char), 0 ≤ (ls.foldl sasStep ((0 : Int), [])).1) ∧
    (∀ ls : List (List Char), 0 ≤ (ls.foldl vbaStep ((0 : Int), [])).1) ∧
    (([] : List (List Char)).foldl sasStep ((0 : Int), [])).1 = 0 ∧
    (([] : List (List Char)).foldl vbaStep ((0 : Int), [])).1 = 0 :=
  ⟨fun ls => sas_depth_nonneg ls ((0 : Int), []) le_rfl,
   fun ls => vba_depth_nonneg ls ((0 : Int), []) le_rfl, rfl, rfl⟩

/- ------------------------------------------------------------------ -/
/- Lemma layer: preprocess_code_python (replace / occurrence facts)    -/
/- ------------------------------------------------------------------ -/

theorem replFuel_succ_cons (pat rep : List Char) (f : Nat) (c : Char) (rest : List Char) :
    replFuel pat rep (f + 1) (c :: rest)
      = if pat.isPrefixOf (c :: rest) && !pat.isEmpty then
          rep ++ replFuel pat rep f (rest.drop (pat.length - 1))
        else c :: replFuel pat rep f rest := rfl

theorem replFuel_nil (pat rep : List Char) (f : Nat) : replFuel pat rep f [] = [] := by
  cases f <;> rfl

theorem replFuel_fuel_congr (pat rep : List Char) : ∀ (f g : Nat) (l : List Char),
    l.length ≤ f → l.length ≤ g → replFuel pat rep f l = replFuel pat rep g l := by
  intro f
  induction f with
  | zero =>
    intro g l h1 _
    rw [List.length_eq_zero.1 (Nat.le_zero.1 h1)]
    rw [replFuel_nil, replFuel_nil]
  | succ f' ih =>
    intro g l h1 h2
    cases l with
    | nil => rw [replFuel_nil, replFuel_nil]
    | cons c rest =>
      cases g with
      | zero => simp at h2
      | succ g' =>
        rw [replFuel_succ_cons, replFuel_succ_cons]
        have hrest : rest.length ≤ f' := by
          rw [List.length_cons] at h1; omega
        have hrest2 : rest.length ≤ g' := by
          rw [List.length_cons] at h2; omega
        by_cases hcond : (pat.isPrefixOf (c :: rest) && !pat.isEmpty) = true
        · rw [if_pos hcond, if_pos hcond]
          congr 1
          exact ih g' _ (by simp [List.length_drop]; omega) (by simp [List.length_drop]; omega)
        · rw [if_neg hcond, if_neg hcond]
          congr 1
          exact ih g' rest hrest hrest2

theorem isPrefixOf_append_indep : ∀ (pat x term : List Char),
    (∀ c ∈ pat, ∀ d ∈ term, c ≠ d) → pat.isPrefixOf (x ++ term) = pat.isPrefixOf x := by
  intro pat
  induction pat with
  | nil =>
    intro x term _
    cases x <;> cases term <;> rfl
  | cons p pat' ih =>
    intro x term hdisj
    cases x with
    | nil =>
      rw [List.nil_append]
      cases term with
      | nil => rfl
      | cons d term' =>
        have hpd : p ≠ d :=
          hdisj p (List.mem_cons_self _ _) d (List.mem_cons_self _ _)
        show ((p == d) && pat'.isPrefixOf term') = false
        simp [hpd]
    | cons a x' =>
      show ((p == a) && pat'.isPrefixOf (x' ++ term)) = ((p == a) && pat'.isPrefixOf x')
      rw [ih x' term (fun c hc d hd => hdisj c (List.mem_cons_of_mem p hc) d hd)]

theorem occursIn_cons (pat : List Char) (c : Char) (rest : List Char) :
    occursIn pat (c :: rest) = (pat.isPrefixOf (c :: rest) || occursIn pat rest) := rfl

theorem occursIn_term_false : ∀ (pat term : List Char), pat ≠ [] →
    (∀ c ∈ pat, ∀ d ∈ term, c ≠ d) → occursIn pat term = false := by
  intro pat term hne hdisj
  induction term with
  | nil =>
    cases pat with
    | nil => exact absurd rfl hne
    | cons p pat' => rfl
  | cons d term' ih =>
    rw [occursIn_cons]
    have h1 : pat.isPrefixOf (d :: term') = false := by
      cases pat with
      | nil => exact absurd rfl hne
      | cons p pat' =>
        have hpd : p ≠ d :=
          hdisj p (List.mem_cons_self _ _) d (List.mem_cons_self _ _)
        show ((p == d) && pat'.isPrefixOf term') = false
        simp [hpd]
    rw [h1, ih (fun c hc d' hd' => hdisj c hc d' (List.mem_cons_of_mem d hd'))]
    rfl

theorem occursIn_append_term : ∀ (pat x term : List Char), pat ≠ [] →
    (∀ c ∈ pat, ∀ d ∈ term, c ≠ d) → occursIn pat (x ++ term) = occursIn pat x := by
  intro pat x term hne hdisj
  induction x with
  | nil =>
    rw [List.nil_append, occursIn_term_false pat term hne hdisj]
    cases pat with
    | nil => exact absurd rfl hne
    | cons p pat' => rfl
  | cons a x' ih =>
    rw [show (a :: x') ++ term = a :: (x' ++ term) from rfl, occursIn_cons, occursIn_cons]
    rw [show a :: (x' ++ term) = (a :: x') ++ term from rfl]
    rw [isPrefixOf_append_indep pat (a :: x') term hdisj, ih]

theorem replFuel_not_occurs (pat rep : List Char) : ∀ (l : List Char) (f : Nat),
    occursIn pat l = false → replFuel pat rep f l = l := by
  intro l
  induction l with
  | nil => intro f _; exact replFuel_nil pat rep f
  | cons c rest ih =>
    intro f hocc
    rw [occursIn_cons] at hocc
    rcases Bool.or_eq_false_iff.1 hocc with ⟨h1, h2⟩
    cases f with
    | zero => rfl
    | succ f' =>
      rw [replFuel_succ_cons]
      rw [h1]
      simp only [Bool.false_and, Bool.false_eq_true, if_false]
      rw [ih f' h2]

theorem replaceAllSub_not_occurs {pat l : List Char} (rep : List Char)
    (h : occursIn pat l = false) : replaceAllSub pat rep l = l :=
  replFuel_not_occurs pat rep l l.length h

theorem replFuel_append_term (pat rep term : List Char) (hne : pat ≠ [])
    (hdisj : ∀ c ∈ pat, ∀ d ∈ term, c ≠ d) : ∀ (f : Nat) (x : List Char),
    x.length + term.length ≤ f →
    replFuel pat rep f (x ++ term) = replFuel pat rep f x ++ term := by
  intro f
  induction f with
  | zero =>
    intro x hlen
    have hx : x = [] := List.length_eq_zero.1 (by omega)
    have ht : term = [] := List.length_eq_zero.1 (by omega)
    subst hx
    subst ht
    simp [replFuel_nil]
  | succ f' ih =>
    intro x hlen
    cases x with
    | nil =>
      rw [List.nil_append, replFuel_nil, List.nil_append]
      exact replFuel_not_occurs pat rep term _ (occursIn_term_false pat term hne hdisj)
    | cons a x' =>
      rw [show (a :: x') ++ term = a :: (x' ++ term) from rfl]
      rw [replFuel_succ_cons, replFuel_succ_cons]
      rw [show a :: (x' ++ term) = (a :: x') ++ term from rfl]
      rw [isPrefixOf_append_indep pat (a :: x') term hdisj]
      by_cases hcond : (pat.isPrefixOf (a :: x') && !pat.isEmpty) = true
      · rw [if_pos hcond, if_pos hcond]
        have hlenpat : pat.length ≤ x'.length + 1 := by
          have hcond' := hcond
          simp only [Bool.and_eq_true] at hcond'
          have := (List.isPrefixOf_iff_prefix.1 hcond'.1).length_le
          simpa using this
        have hdrop : (x' ++ term).drop (pat.length - 1)
            = x'.drop (pat.length - 1) ++ term := by
          rw [List.drop_append_eq_append_drop]
          rw [show pat.length - 1 - x'.length = 0 by omega, List.drop_zero]
        rw [hdrop, List.append_assoc]
        congr 1
        apply ih
        simp only [List.length_drop]
        rw [List.length_cons] at hlen
        omega
      · rw [if_neg hcond, if_neg hcond]
        rw [List.cons_append]
        congr 1
        apply ih
        rw [List.length_cons] at hlen
        omega

theorem replaceAllSub_append_term (pat rep term : List Char) (hne : pat ≠ [])
    (hdisj : ∀ c ∈ pat, ∀ d ∈ term, c ≠ d) (x : List Char) :
    replaceAllSub pat rep (x ++ term) = replaceAllSub pat rep x ++ term := by
  unfold replaceAllSub
  rw [replFuel_append_term pat rep term hne hdisj (x ++ term).length x
    (by rw [List.length_append])]
  congr 1
  exact replFuel_fuel_congr pat rep (x ++ term).length x.length x
    (by rw [List.length_append]; omega) le_rfl

theorem foldKw_append_term : ∀ (prs : List (List Char × List Char)) (term : List Char),
    (∀ pr ∈ prs, pr.1 ≠ [] ∧ ∀ c ∈ pr.1, ∀ d ∈ term, c ≠ d) → ∀ l : List Char,
    prs.foldl (fun acc pr => if occursIn pr.1 acc then replaceAllSub pr.1 pr.2 acc else acc)
        (l ++ term)
      = prs.foldl
          (fun acc pr => if occursIn pr.1 acc then replaceAllSub pr.1 pr.2 acc else acc)
          l ++ term := by
  intro prs
  induction prs with
  | nil => intro term _ l; rfl
  | cons pr prs' ih =>
    intro term hcond l
    rcases hcond pr (List.mem_cons_self _ _) with ⟨hne, hdisj⟩
    rw [List.foldl_cons, List.foldl_cons]
    have hstep :
        (if occursIn pr.1 (l ++ term) then replaceAllSub pr.1 pr.2 (l ++ term) else l ++ term)
          = (if occursIn pr.1 l then replaceAllSub pr.1 pr.2 l else l) ++ term := by
      rw [occursIn_append_term pr.1 l term hne hdisj]
      by_cases hocc : occursIn pr.1 l = true
      · rw [if_pos hocc, if_pos hocc]
        exact replaceAllSub_append_term pr.1 pr.2 term hne hdisj l
      · rw [if_neg hocc, if_neg hocc]
    rw [hstep]
    exact ih term (fun q hq => hcond q (List.mem_cons_of_mem pr hq)) _

theorem processKwLine_eq_spec (l : List Char) : processKwLine l = processKwLineSpec l := by
  unfold processKwLine processKwLineSpec
  have hgen : ∀ (prs : List (List Char × List Char)) (acc : List Char),
      prs.foldl (fun a pr => if occursIn pr.1 a then replaceAllSub pr.1 pr.2 a else a) acc
        = prs.foldl (fun a pr => replaceAllSub pr.1 pr.2 a) acc := by
    intro prs
    induction prs with
    | nil => intro acc; rfl
    | cons pr prs' ih =>
      intro acc
      rw [List.foldl_cons, List.foldl_cons]
      by_cases hocc : occursIn pr.1 acc = true
      · rw [if_pos hocc]
        exact ih _
      · rw [if_neg hocc]
        have e : replaceAllSub pr.1 pr.2 acc = acc :=
          replaceAllSub_not_occurs pr.2 (Bool.eq_false_iff.2 hocc)
        rw [e]
        exact ih _
  exact hgen keywordPairs l

/- ------------------------------------------------------------------ -/
/- Claim theorem for the Keyword Normalizer (C8)                       -/
/- ------------------------------------------------------------------ -/

/-- C8: the Keyword Normalizer's per-line body equals the spec-side body
that unconditionally applies, in the fixed enumeration order Else:, Elif,
If, While, For, the replacement of every literal occurrence of each
left-hand substring (the "old in line" guard is redundant); a line
terminator "\n", "\r" or "\r\n" appended to any body passes through the
per-line replacement untouched (terminators are preserved exactly); and
"  If   cond:" becomes "  if   cond:" while a line with two occurrences
has both replaced. -/
theorem c8_keyword_normalizer :
    (∀ s : String, preprocess_code_python s = preprocessSpec s) ∧
    (∀ (body term : List Char), term = ['\n'] ∨ term = ['\r'] ∨ term = ['\r', '\n'] →
      processKwLine (body ++ term) = processKwLine body ++ term) ∧
    preprocess_code_python "  If   cond:" = "  if   cond:" ∧
    preprocess_code_python "If a: If b:\nWhile c:" = "if a: if b:\nwhile c:" := by
  refine ⟨?_, ?_, by decide, by decide⟩
  · intro s
    show String.mk ((List.map processKwLine (splitlinesKeep s.data)).flatten)
      = String.mk ((List.map processKwLineSpec (splitlinesKeep s.data)).flatten)
    rw [List.map_congr_left (fun l _ => processKwLine_eq_spec l)]
  · intro body term hterm
    rcases hterm with h | h | h <;> subst h <;>
      exact foldKw_append_term keywordPairs _ (by decide) body

/-- C8 witness: appending a "\n" terminator to the concrete body "If x:"
passes through the per-line replacement untouched. -/
theorem c8_keyword_normalizer_witness :
    ((['\n'] : List Char) = ['\n'] ∨ (['\n'] : List Char) = ['\r']
      ∨ (['\n'] : List Char) = ['\r', '\n']) ∧
    processKwLine ("If x:".data ++ ['\n']) = processKwLine ("If x:".data) ++ ['\n'] :=
  ⟨Or.inl rfl, c8_keyword_normalizer.2.1 "If x:".data ['\n'] (Or.inl rfl)⟩

/- ------------------------------------------------------------------ -/
/- Claim theorems for the Block Indentation Repairer (C1, C3, C10)     -/
/- ------------------------------------------------------------------ -/

/-- C1 counterexample: on "if x:\nif y:\nz=1" a single invocation of the
Block Indentation Repairer already brings z=1 to indent width 8, not 4:
the loop stores each corrected line's new indent and later iterations of
the same pass read it, so corrections cascade down the chain in one pass. -/
theorem c1_single_pass_counterexample :
    lineIndentWidth (fix_block_indentation_python "if x:\nif y:\nz=1" 4) 2 ≠ 4 ∧
    lineIndentWidth (fix_block_indentation_python "if x:\nif y:\nz=1" 4) 2 = 8 := by
  decide

/-- C1 amended: a single invocation cascades corrections down a chain of
under-indented lines, because each corrected line's updated indent is
visible when that line is later visited as an opener in the same pass: one
invocation on "if x:\nif y:\nz=1" yields z=1 at indent width 8, and a
second invocation changes nothing. -/
theorem c1_single_pass_cascade :
    fix_block_indentation_python "if x:\nif y:\nz=1" 4 = "if x:\n    if y:\n        z=1" ∧
    fix_block_indentation_python (fix_block_indentation_python "if x:\nif y:\nz=1" 4) 4
      = fix_block_indentation_python "if x:\nif y:\nz=1" 4 := by
  decide

/-- C3: a line is treated as a block opener exactly when its stripped text
ends with ":" and its lowercase form starts with one of the ten block
keywords; the outer loop visits each record and, at an opener, transforms
only the records after it; that transformation rewrites exactly the first
non-blank record (blank records are skipped and never modified, stated via
conjunct four) to (opener indent + indent_size) spaces followed by its own
stripped text whenever its indent is not deeper than the opener's, and
leaves it untouched whenever it is strictly deeper; "if x:\ny = 1" with
one pass becomes "if x:\n    y = 1", and already-correct input is
unchanged. -/
theorem c3_repairer_contract :
    (∀ l : List Char, isOpenerLine l = true ↔
      ((stripChars l).getLast? = some ':' ∧
        blockKeywords.any (fun kw => kw.isPrefixOf (lowerChars (stripChars l))) = true)) ∧
    (∀ (sz : Nat) (x : List Char × Nat) (rest : List (List Char × Nat)),
      outerFix sz (x :: rest)
        = x :: outerFix sz (if isOpenerLine x.1 then innerFix x.2 sz rest else rest)) ∧
    (∀ (lvl sz : Nat) (pls : List (List Char × Nat)),
      innerFix lvl sz pls =
        match firstNonBlank pls with
        | none => pls
        | some (j, x) =>
          if x.2 ≤ lvl then pls.set j (mkSpaces (lvl + sz) ++ stripChars x.1, lvl + sz)
          else pls) ∧
    (∀ (lvl sz : Nat) (pls : List (List Char × Nat)) (m : Nat) (x : List Char × Nat),
      pls[m]? = some x → stripChars x.1 = [] → (innerFix lvl sz pls)[m]? = some x) ∧
    fix_block_indentation_python "if x:\ny = 1" 4 = "if x:\n    y = 1" ∧
    fix_block_indentation_python "if x:\n    y = 1" 4 = "if x:\n    y = 1" := by
  refine ⟨fun l => ?_, outerFix_cons, innerFix_eq_firstNonBlank,
    innerFix_getElem?_blank, by decide, by decide⟩
  simp [isOpenerLine, Bool.and_eq_true, beq_iff_eq]

/-- C3 witness: a concrete blank record (a line of one space) is left
exactly in place by the inner transformation. -/
theorem c3_repairer_contract_witness :
    ([(" ".data, 0)] : List (List Char × Nat))[0]? = some (" ".data, 0) ∧
    stripChars (" ".data) = [] ∧
    (innerFix 0 4 [(" ".data, 0)])[0]? = some (" ".data, 0) :=
  ⟨by decide, by decide,
    c3_repairer_contract.2.2.2.1 0 4 [(" ".data, 0)] 0 (" ".data, 0) (by decide) (by decide)⟩

/-- C10 counterexample: the input "a\n\n" ends with two newlines; one
invocation of the Block Indentation Repairer (which corrects nothing here)
returns "a\n", whose last character is a newline, so the output is not
free of a trailing line terminator. -/
theorem c10_trailing_newline_counterexample :
    fix_block_indentation_python "a\n\n" 4 = "a\n" ∧
    ((fix_block_indentation_python "a\n\n" 4).data).getLast? = some '\n' := by
  decide

/-- C10 amended: the Block Indentation Repairer's output is the "\n"-join
of the processed terminator-stripped lines: it never contains a carriage
return (so "\r\n" and "\r" terminators are gone), and it ends in no
newline provided the input's last line is non-empty; when the input ends
with two or more terminators, only the final terminator is dropped and
the output still ends with a single "\n" ("a\r\nb\r" becomes "a\nb", and
"a\n\n" becomes "a\n", both without any indentation being corrected). -/
theorem c10_join_normalization :
    (∀ s : String, '\r' ∉ (fix_block_indentation_python s 4).data) ∧
    (∀ (s : String) (ll : List Char), (splitlinesNoKeep s.data).getLast? = some ll →
      ll ≠ [] → ((fix_block_indentation_python s 4).data).getLast? ≠ some '\n') ∧
    fix_block_indentation_python "a\r\nb\r" 4 = "a\nb" ∧
    fix_block_indentation_python "a\n\n" 4 = "a\n" := by
  have hinit : ∀ s : String, ∀ y ∈ (splitlinesNoKeep s.data).map toLineRecord,
      '\n' ∉ y.1 ∧ '\r' ∉ y.1 := by
    intro s y hy
    rcases List.mem_map.1 hy with ⟨line, hline, hrec⟩
    have := splitlinesNoKeep_chars hline
    rw [← hrec]
    exact this
  refine ⟨?_, ?_, by decide, by decide⟩
  · intro s hmem
    rcases mem_intercalateNl hmem with h | ⟨x, hx, hcx⟩
    · exact absurd h (by decide)
    · rcases List.mem_map.1 hx with ⟨y, hy, hxy⟩
      have hgood := outerFixFuel_chars 4 ((splitlinesNoKeep s.data).map toLineRecord).length
        ((splitlinesNoKeep s.data).map toLineRecord) (hinit s) y hy
      exact hgood.2 (hxy ▸ hcx)
  · intro s ll hlast hllne hcontra
    have hplast : (((splitlinesNoKeep s.data).map toLineRecord)).getLast?
        = some (toLineRecord ll) := by
      rw [List.getLast?_map, hlast]
      rfl
    rcases outerFixFuel_lastNE 4 ((splitlinesNoKeep s.data).map toLineRecord).length
      ((splitlinesNoKeep s.data).map toLineRecord) (toLineRecord ll) hplast hllne
      with ⟨z', hz', hz'ne⟩
    have houtlast : ((outerFix 4 ((splitlinesNoKeep s.data).map toLineRecord)).map
        Prod.fst).getLast? = some z'.1 := by
      rw [List.getLast?_map]
      rw [show outerFix 4 ((splitlinesNoKeep s.data).map toLineRecord)
          = outerFixFuel 4 ((splitlinesNoKeep s.data).map toLineRecord).length
            ((splitlinesNoKeep s.data).map toLineRecord) from rfl]
      rw [hz']
      rfl
    have hdata : (fix_block_indentation_python s 4).data
        = intercalateNl ((outerFix 4 ((splitlinesNoKeep s.data).map toLineRecord)).map
            Prod.fst) := rfl
    rw [hdata, intercalateNl_getLast? houtlast hz'ne] at hcontra
    have hcmem : '\n' ∈ z'.1 := mem_of_getLast?_eq_some hcontra
    have hz'good := outerFixFuel_chars 4 ((splitlinesNoKeep s.data).map toLineRecord).length
      ((splitlinesNoKeep s.data).map toLineRecord) (hinit s) z'
      (mem_of_getLast?_eq_some hz')
    exact hz'good.1 hcmem

/-- C10 witness: on the single-line input "ab" (non-empty last line) the
output carries no trailing newline. -/
theorem c10_join_normalization_witness :
    (splitlinesNoKeep ("ab" : String).data).getLast? = some "ab".data ∧
    ((fix_block_indentation_python "ab" 4).data).getLast? ≠ some '\n' :=
  ⟨by decide, c10_join_normalization.2.1 "ab" "ab".data (by decide) (by decide)⟩

/- ------------------------------------------------------------------ -/
/- Claim theorems for the External Formatter Adapter (C2)              -/
/- ------------------------------------------------------------------ -/

/-- C2 counterexample: with an engine whose failure carries the detail
"E123", on input "if x:\ny=1" with one repair pass, format_python_code
returns exactly the pre-adapter text, and the error detail occurs nowhere
in the result: the function returns only a string and discards the caught
error, so no descriptive warning accompanies the pre-adapter text. -/
theorem c2_adapter_warning_counterexample :
    format_python_code (fun _ => Except.error "E123") "if x:\ny=1" 1
      = code_step2 "if x:\ny=1" 1 ∧
    format_python_code (fun _ => Except.error "E123") "if x:\ny=1" 1 = "if x:\n    y=1" ∧
    occursIn ("E123".data)
      ((format_python_code (fun _ => Except.error "E123") "if x:\ny=1" 1).data) = false := by
  decide

/-- C2 amended: if the first engine invocation fails, or the first
succeeds and the second fails, the stage swallows the failure and returns
the pre-adapter text (with the error detail discarded and no warning
produced); if both invocations succeed it returns the twice-processed
text; and the result after a failure does not depend on the failure's
error detail. -/
theorem c2_adapter_degrades :
    (∀ (engine : String → Except String String) (raw : String) (n : Nat) (e : String),
      engine (code_step2 raw n) = Except.error e →
      format_python_code engine raw n = code_step2 raw n) ∧
    (∀ (engine : String → Except String String) (raw : String) (n : Nat) (p1 e : String),
      engine (code_step2 raw n) = Except.ok p1 → engine p1 = Except.error e →
      format_python_code engine raw n = code_step2 raw n) ∧
    (∀ (engine : String → Except String String) (raw : String) (n : Nat) (p1 p2 : String),
      engine (code_step2 raw n) = Except.ok p1 → engine p1 = Except.ok p2 →
      format_python_code engine raw n = p2) ∧
    (∀ (raw : String) (n : Nat) (e1 e2 : String),
      format_python_code (fun _ => Except.error e1) raw n
        = format_python_code (fun _ => Except.error e2) raw n) := by
  refine ⟨?_, ?_, ?_, ?_⟩
  · intro engine raw n e h
    simp only [format_python_code, h]
  · intro engine raw n p1 e h1 h2
    simp only [format_python_code, h1, h2]
  · intro engine raw n p1 p2 h1 h2
    simp only [format_python_code, h1, h2]
  · intro raw n e1 e2
    rfl

/-- C2 witness: a concretely failing engine makes the stage return the
pre-adapter text. -/
theorem c2_adapter_degrades_witness :
    ((fun _ : String => (Except.error "boom" : Except String String)) (code_step2 "x" 0)
      = Except.error "boom") ∧
    format_python_code (fun _ => Except.error "boom") "x" 0 = code_step2 "x" 0 :=
  ⟨rfl, c2_adapter_degrades.1 (fun _ => Except.error "boom") "x" 0 "boom" rfl⟩

end CodeFormat
